import Mathlib

/-!
Shallow embedding of `src/puzzle_problem.ipynb`: a sliding-tile (n²-1) puzzle
solver using best-first (A*-style) search with a heap frontier.

A configuration (`np.ndarray` of shape N×N in the source, moved around as
nested Python lists via `.tolist()`) is modelled as `List (List Nat)` in
row-major order.  The global `PUZZLE_DIM` of the source is threaded as an
explicit parameter `N`.  Machine integers are modelled as `Nat`/`Int`
(Python ints are unbounded, so no wrap-around is needed).

The `heapq` frontier holds tuples `(f_cost, state, path, g_cost)` compared by
Python's lexicographic tuple/list order; `heappop` returns a least element of
the multiset of entries, and since the order compares the whole tuple, the
popped *value* is the unique minimum.  We model the frontier as a `List` of
nodes and pop with `popMinD`, which selects the least node under the same
lexicographic order.

The unbounded `while frontier:` loop is given an explicit fuel parameter:
`none` means fuel ran out, `some none` is the source's `return None`
(exhausted frontier), `some (some path)` is the source's `return path`.
-/

/-- A configuration: the row-major grid of tile values (0 is the blank). -/
abbrev ConfigL := List (List Nat)

/-- `Action` of the source: `namedtuple('Action', ['pos1', 'pos2'])`, two
grid coordinates `(row, col)`. -/
abbrev PAction := (Nat × Nat) × (Nat × Nat)

/-- Reads cell `(x, y)`; in the source this is `state[x, y]` (an index error
if out of range, which never happens on well-formed inputs — modelled with
default `0`). -/
def cell (c : ConfigL) (x y : Nat) : Nat :=
  (c.getD x []).getD y 0

/-- Writes cell `(x, y)`; `state[x, y] = v` in the source.  `List.set` is a
no-op out of range, which never happens on well-formed inputs. -/
def setCell (c : ConfigL) (x y v : Nat) : ConfigL :=
  c.set x ((c.getD x []).set y v)

/-- The `[int(_[0]) for _ in np.where(state == 0)]` of the source: the
coordinates of the first zero in row-major order (`none` if no zero, where
the source would raise). -/
def findBlank : ConfigL → Option (Nat × Nat)
  | [] => none
  | r :: rs =>
    match r.findIdx? (· == 0) with
    | some y => some (0, y)
    | none => (findBlank rs).map (fun p => (p.1 + 1, p.2))

/-- `available_actions(state)` of the source: locate the blank at `(x, y)`
and return the in-bounds swaps, in the fixed order up, down, left, right. -/
def available_actions (N : Nat) (state : ConfigL) : List PAction :=
  match findBlank state with
  | none => []
  | some (x, y) =>
    (if 0 < x then [((x, y), (x - 1, y))] else []) ++
    (if x < N - 1 then [((x, y), (x + 1, y))] else []) ++
    (if 0 < y then [((x, y), (x, y - 1))] else []) ++
    (if y < N - 1 then [((x, y), (x, y + 1))] else [])

/-- `do_action(state, action)` of the source: copy the state and swap the
values at `action.pos1` and `action.pos2` (both old values are read before
either write, as in Python's simultaneous assignment). -/
def do_action (state : ConfigL) (a : PAction) : ConfigL :=
  let v1 := cell state a.1.1 a.1.2
  let v2 := cell state a.2.1 a.2.2
  setCell (setCell state a.1.1 a.1.2 v2) a.2.1 a.2.2 v1

/-- `goal_positions` of the source: `divmod(value - 1, N)` for each value. -/
def goal_positions (N value : Nat) : Nat × Nat :=
  ((value - 1) / N, (value - 1) % N)

/-- `heuristic(state, goal)` of the source: over all cells `(x, y)` with a
non-zero value, accumulate the Manhattan distance to the value's goal
position `divmod(value - 1, N)` and count the cells whose value differs from
`goal` at the same coordinates; return `manhattan + 2 * misplaced`. -/
def heuristic (N : Nat) (state goal : ConfigL) : Nat :=
  let acc :=
    (List.range N).foldl (fun acc x =>
      (List.range N).foldl (fun acc y =>
        let value := cell state x y
        if value ≠ 0 then
          (acc.1 + (((x : Int) - ((value - 1) / N : Nat)).natAbs +
                    ((y : Int) - ((value - 1) % N : Nat)).natAbs),
           acc.2 + (if cell goal x y ≠ value then 1 else 0))
        else acc) acc) ((0, 0) : Nat × Nat)
  acc.1 + 2 * acc.2

/-- A frontier entry, the heap tuple `(f_cost, state, path, g_cost)`. -/
abbrev Node := Nat × ConfigL × List ConfigL × Nat

/-- Python `<` on lists, lexicographic with a strict prefix smaller, lifted
from a strict order on the elements. -/
def listLtBy (lt : α → α → Bool) : List α → List α → Bool
  | [], [] => false
  | [], _ :: _ => true
  | _ :: _, [] => false
  | a :: as, b :: bs => if lt a b then true else if lt b a then false else listLtBy lt as bs

/-- Python `<` on rows (lists of ints). -/
def rowLt (a b : List Nat) : Bool := listLtBy (fun x y => decide (x < y)) a b

/-- Python `<` on configurations (lists of rows). -/
def configLt (a b : ConfigL) : Bool := listLtBy rowLt a b

/-- Python `<` on paths (lists of configurations). -/
def pathLt (a b : List ConfigL) : Bool := listLtBy configLt a b

/-- Python `<` on the heap tuples `(f, state, path, g)`: lexicographic over
the four fields. -/
def nodeLt (a b : Node) : Bool :=
  if a.1 < b.1 then true else if b.1 < a.1 then false else
  if configLt a.2.1 b.2.1 then true else if configLt b.2.1 a.2.1 then false else
  if pathLt a.2.2.1 b.2.2.1 then true else if pathLt b.2.2.1 a.2.2.1 then false else
  decide (a.2.2.2 < b.2.2.2)

/-- `heapq.heappop` on a non-empty frontier `n :: l`: the least entry under
the tuple order, together with the remaining entries. -/
def popMinD (n : Node) : List Node → Node × List Node
  | [] => (n, [])
  | m :: rest =>
    if nodeLt (popMinD m rest).1 n then ((popMinD m rest).1, n :: (popMinD m rest).2)
    else (n, m :: rest)

/-- The `for act in available_actions(...)` body of `solve_puzzle`: the
children pushed when a node is expanded, each with `g+1` and
`f = g + 1 + heuristic`. -/
def expand (N : Nat) (goal : ConfigL) (node : Node) : List Node :=
  (available_actions N node.2.1).map (fun act =>
    let new_state := do_action node.2.1 act
    (node.2.2.2 + 1 + heuristic N new_state goal, new_state,
     node.2.2.1 ++ [new_state], node.2.2.2 + 1))

/-- The `while frontier:` loop of `solve_puzzle`, with explicit fuel.
`some none` is the source's `return None` on an emptied frontier,
`some (some path)` its `return path`, `none` means the fuel ran out.
The visited set of `tobytes()` fingerprints is modelled as a list of
configurations with membership up to equality (on the equal-shaped states of
one search, `tobytes` equality is exactly cell-by-cell equality). -/
def solveLoop (N : Nat) (goal : ConfigL) : Nat → List Node → List ConfigL → Option (Option (List ConfigL))
  | _, [], _ => some none
  | 0, _ :: _, _ => none
  | fuel + 1, n :: rest, visited =>
    if (popMinD n rest).1.2.1 = goal then some (some (popMinD n rest).1.2.2.1)
    else if (popMinD n rest).1.2.1 ∈ visited then
      solveLoop N goal fuel (popMinD n rest).2 visited
    else
      solveLoop N goal fuel ((popMinD n rest).2 ++ expand N goal (popMinD n rest).1)
        ((popMinD n rest).1.2.1 :: visited)

/-- `solve_puzzle(start_state, goal_state)` of the source: frontier seeded
with the single node `(0, start, [start], 0)` (note `f = 0`, not
`0 + heuristic`), empty visited set, then the loop. -/
def solve_puzzle (N fuel : Nat) (start_state goal_state : ConfigL) : Option (Option (List ConfigL)) :=
  solveLoop N goal_state fuel [(0, start_state, [start_state], 0)] []

/-- One search step: `b` arises from `a` by exactly one available action. -/
def StepRel (N : Nat) (a b : ConfigL) : Prop :=
  ∃ m ∈ available_actions N a, b = do_action a m

/-! ### Basic facts about cells and writes -/

theorem length_setCell (c : ConfigL) (x y v : Nat) : (setCell c x y v).length = c.length := by
  simp [setCell]

theorem rowLen_setCell (c : ConfigL) (x y v a : Nat) :
    ((setCell c x y v).getD a []).length = (c.getD a []).length := by
  by_cases hx : x < c.length
  · by_cases hax : x = a
    · subst hax
      simp [setCell, List.getD_eq_getElem?_getD, List.getElem?_set_self hx]
    · simp [setCell, List.getD_eq_getElem?_getD, List.getElem?_set_ne hax]
  · simp [setCell, List.set_eq_of_length_le (Nat.le_of_not_lt hx)]

theorem cell_setCell_ne (c : ConfigL) {x y a b : Nat} (v : Nat) (h : (a, b) ≠ (x, y)) :
    cell (setCell c x y v) a b = cell c a b := by
  by_cases hx : x < c.length
  · by_cases hax : x = a
    · subst hax
      have hby : b ≠ y := by
        intro hb; exact h (by simp [hb])
      simp [cell, setCell, List.getD_eq_getElem?_getD, List.getElem?_set_self hx,
        List.getElem?_set_ne (Ne.symm hby)]
    · simp [cell, setCell, List.getD_eq_getElem?_getD, List.getElem?_set_ne hax]
  · simp [cell, setCell, List.set_eq_of_length_le (Nat.le_of_not_lt hx)]

theorem cell_setCell_self (c : ConfigL) {x y : Nat} (v : Nat)
    (hx : x < c.length) (hy : y < (c.getD x []).length) :
    cell (setCell c x y v) x y = v := by
  rw [List.getD_eq_getElem?_getD] at hy
  simp [cell, setCell, List.getD_eq_getElem?_getD, List.getElem?_set_self hx,
    List.getElem?_set_self hy]

theorem row_ext (r₁ r₂ : List Nat) (hlen : r₁.length = r₂.length)
    (h : ∀ b, r₁.getD b 0 = r₂.getD b 0) : r₁ = r₂ := by
  apply List.ext_getElem?
  intro b
  by_cases hb : b < r₁.length
  · have hb₂ : b < r₂.length := hlen ▸ hb
    have e := h b
    rw [List.getElem?_eq_getElem hb, List.getElem?_eq_getElem hb₂]
    rw [List.getD_eq_getElem?_getD, List.getD_eq_getElem?_getD,
      List.getElem?_eq_getElem hb, List.getElem?_eq_getElem hb₂] at e
    simpa using e
  · rw [List.getElem?_eq_none (Nat.le_of_not_lt hb),
      List.getElem?_eq_none (hlen ▸ Nat.le_of_not_lt hb)]

theorem config_ext (c₁ c₂ : ConfigL) (hlen : c₁.length = c₂.length)
    (hrow : ∀ a, (c₁.getD a []).length = (c₂.getD a []).length)
    (hcell : ∀ a b, cell c₁ a b = cell c₂ a b) : c₁ = c₂ := by
  apply List.ext_getElem?
  intro a
  by_cases ha : a < c₁.length
  · have ha₂ : a < c₂.length := hlen ▸ ha
    rw [List.getElem?_eq_getElem ha, List.getElem?_eq_getElem ha₂]
    refine congrArg some (row_ext _ _ ?_ ?_)
    · have e := hrow a
      simp only [List.getD_eq_getElem?_getD, List.getElem?_eq_getElem ha,
        List.getElem?_eq_getElem ha₂, Option.getD_some] at e
      exact e
    · intro b
      have e := hcell a b
      rw [cell, cell] at e
      simp only [List.getD_eq_getElem?_getD, List.getElem?_eq_getElem ha,
        List.getElem?_eq_getElem ha₂, Option.getD_some] at e
      simp only [List.getD_eq_getElem?_getD]
      exact e
  · rw [List.getElem?_eq_none (Nat.le_of_not_lt ha),
      List.getElem?_eq_none (hlen ▸ Nat.le_of_not_lt ha)]

/-- A coordinate pair lies inside the grid's actual storage. -/
def InBounds (c : ConfigL) (p : Nat × Nat) : Prop :=
  p.1 < c.length ∧ p.2 < (c.getD p.1 []).length

theorem length_do_action (c : ConfigL) (m : PAction) :
    (do_action c m).length = c.length := by
  simp [do_action, length_setCell]

theorem rowLen_do_action (c : ConfigL) (m : PAction) (a : Nat) :
    ((do_action c m).getD a []).length = (c.getD a []).length := by
  simp only [do_action]
  rw [rowLen_setCell, rowLen_setCell]

theorem cell_do_action_other (c : ConfigL) (m : PAction) {a b : Nat}
    (h1 : (a, b) ≠ m.1) (h2 : (a, b) ≠ m.2) :
    cell (do_action c m) a b = cell c a b := by
  rw [do_action]
  rw [cell_setCell_ne _ _ (by simpa using h2), cell_setCell_ne _ _ (by simpa using h1)]

theorem cell_do_action_pos2 (c : ConfigL) (m : PAction) (h2 : InBounds c m.2) :
    cell (do_action c m) m.2.1 m.2.2 = cell c m.1.1 m.1.2 := by
  rw [do_action]
  exact cell_setCell_self _ _
    (by rw [length_setCell]; exact h2.1)
    (by rw [rowLen_setCell]; exact h2.2)

theorem cell_do_action_pos1 (c : ConfigL) (m : PAction) (h1 : InBounds c m.1)
    (hne : m.1 ≠ m.2) :
    cell (do_action c m) m.1.1 m.1.2 = cell c m.2.1 m.2.2 := by
  rw [do_action]
  rw [cell_setCell_ne _ _ (by simpa using hne)]
  exact cell_setCell_self _ _ h1.1 h1.2

theorem do_action_involutive (c : ConfigL) (m : PAction)
    (h1 : InBounds c m.1) (h2 : InBounds c m.2) (hne : m.1 ≠ m.2) :
    do_action (do_action c m) m = c := by
  have h1' : InBounds (do_action c m) m.1 :=
    ⟨by rw [length_do_action]; exact h1.1, by rw [rowLen_do_action]; exact h1.2⟩
  have h2' : InBounds (do_action c m) m.2 :=
    ⟨by rw [length_do_action]; exact h2.1, by rw [rowLen_do_action]; exact h2.2⟩
  apply config_ext
  · rw [length_do_action, length_do_action]
  · intro a; rw [rowLen_do_action, rowLen_do_action]
  · intro a b
    by_cases hp1 : (a, b) = m.1
    · have ha : a = m.1.1 := by rw [← hp1]
      have hb : b = m.1.2 := by rw [← hp1]
      subst ha; subst hb
      rw [cell_do_action_pos1 _ _ h1' hne, cell_do_action_pos2 _ _ h2]
    · by_cases hp2 : (a, b) = m.2
      · have ha : a = m.2.1 := by rw [← hp2]
        have hb : b = m.2.2 := by rw [← hp2]
        subst ha; subst hb
        rw [cell_do_action_pos2 _ _ h2', cell_do_action_pos1 _ _ h1 hne]
      · rw [cell_do_action_other _ _ hp1 hp2, cell_do_action_other _ _ hp1 hp2]

/-! ### The blank's coordinates and the generated actions -/

theorem findBlank_bounds {c : ConfigL} {x y : Nat} (h : findBlank c = some (x, y)) :
    x < c.length ∧ y < (c.getD x []).length := by
  induction c generalizing x y with
  | nil => simp [findBlank] at h
  | cons r rs ih =>
    rw [findBlank] at h
    split at h
    · rename_i y0 heq
      injection h with h'
      obtain ⟨rfl, rfl⟩ : 0 = x ∧ y0 = y := Prod.mk.inj h'
      refine ⟨Nat.succ_pos _, ?_⟩
      have hy := (List.findIdx?_eq_some_iff_findIdx_eq.mp heq).1
      simpa using hy
    · rename_i heq
      cases hb : findBlank rs with
      | none => rw [hb] at h; simp at h
      | some q =>
        rw [hb] at h
        injection h with h'
        obtain ⟨h1, h2⟩ := Prod.mk.inj h'
        obtain ⟨ih1, ih2⟩ := ih hb
        subst h1; subst h2
        refine ⟨by simpa using Nat.succ_lt_succ ih1, ?_⟩
        simpa [List.getD_cons_succ] using ih2

theorem mem_ite_singleton {P : Prop} [Decidable P] {e m : PAction} :
    (m ∈ if P then [e] else ([] : List PAction)) ↔ P ∧ m = e := by
  by_cases hP : P
  · simp [hP]
  · simp [hP]

theorem mem_available_actions {N : Nat} {c : ConfigL} {m : PAction}
    (hm : m ∈ available_actions N c) :
    ∃ x y, findBlank c = some (x, y) ∧ m.1 = (x, y) ∧
      ((0 < x ∧ m.2 = (x - 1, y)) ∨ (x < N - 1 ∧ m.2 = (x + 1, y)) ∨
       (0 < y ∧ m.2 = (x, y - 1)) ∨ (y < N - 1 ∧ m.2 = (x, y + 1))) := by
  rw [available_actions] at hm
  split at hm
  · simp at hm
  · rename_i x y heq
    refine ⟨x, y, heq, ?_⟩
    simp only [List.mem_append, mem_ite_singleton] at hm
    rcases hm with ((⟨hP, he⟩ | ⟨hP, he⟩) | ⟨hP, he⟩) | ⟨hP, he⟩
    · exact ⟨by rw [he], Or.inl ⟨hP, by rw [he]⟩⟩
    · exact ⟨by rw [he], Or.inr (Or.inl ⟨hP, by rw [he]⟩)⟩
    · exact ⟨by rw [he], Or.inr (Or.inr (Or.inl ⟨hP, by rw [he]⟩))⟩
    · exact ⟨by rw [he], Or.inr (Or.inr (Or.inr ⟨hP, by rw [he]⟩))⟩

/-- The grid really is N×N. -/
def WFConfig (N : Nat) (c : ConfigL) : Prop :=
  c.length = N ∧ ∀ r ∈ c, r.length = N

theorem WFConfig_rowLen {N : Nat} {c : ConfigL} (hwf : WFConfig N c) {x : Nat}
    (hx : x < N) : (c.getD x []).length = N := by
  have hx' : x < c.length := by rw [hwf.1]; exact hx
  have hmem : c.getD x [] ∈ c := by
    rw [List.getD_eq_getElem?_getD, List.getElem?_eq_getElem hx', Option.getD_some]
    exact List.getElem_mem hx'
  exact hwf.2 _ hmem

/-- The two coordinates of a generated action are inside the grid and are
distinct. -/
theorem action_bounds {N : Nat} {c : ConfigL} {m : PAction} (hwf : WFConfig N c)
    (hm : m ∈ available_actions N c) :
    InBounds c m.1 ∧ InBounds c m.2 ∧ m.1 ≠ m.2 := by
  obtain ⟨x, y, hfb, hm1, hcase⟩ := mem_available_actions hm
  obtain ⟨hxl, hyl⟩ := findBlank_bounds hfb
  have hxN : x < N := by rw [← hwf.1]; exact hxl
  have hyN : y < N := by
    have := WFConfig_rowLen hwf hxN
    rw [← this]; exact hyl
  have hb1 : InBounds c m.1 := by
    rw [hm1]; exact ⟨hxl, hyl⟩
  have hrow : ∀ a, a < N → a < c.length ∧ ∀ b, b < N → b < (c.getD a []).length := by
    intro a ha
    refine ⟨by rw [hwf.1]; exact ha, ?_⟩
    intro b hb
    rw [WFConfig_rowLen hwf ha]; exact hb
  rcases hcase with ⟨hg, hm2⟩ | ⟨hg, hm2⟩ | ⟨hg, hm2⟩ | ⟨hg, hm2⟩
  · have hx1 : x - 1 < N := lt_of_le_of_lt (Nat.sub_le _ _) hxN
    refine ⟨hb1, ⟨?_, ?_⟩, ?_⟩
    · rw [hm2]; exact (hrow _ hx1).1
    · rw [hm2]; exact (hrow _ hx1).2 _ hyN
    · rw [hm1, hm2]
      intro hcon
      have := (Prod.mk.inj hcon).1
      omega
  · have hx1 : x + 1 < N := by omega
    refine ⟨hb1, ⟨?_, ?_⟩, ?_⟩
    · rw [hm2]; exact (hrow _ hx1).1
    · rw [hm2]; exact (hrow _ hx1).2 _ hyN
    · rw [hm1, hm2]
      intro hcon
      have := (Prod.mk.inj hcon).1
      omega
  · have hy1 : y - 1 < N := lt_of_le_of_lt (Nat.sub_le _ _) hyN
    refine ⟨hb1, ⟨?_, ?_⟩, ?_⟩
    · rw [hm2]; exact (hrow _ hxN).1
    · rw [hm2]; exact (hrow _ hxN).2 _ hy1
    · rw [hm1, hm2]
      intro hcon
      have := (Prod.mk.inj hcon).2
      omega
  · have hy1 : y + 1 < N := by omega
    refine ⟨hb1, ⟨?_, ?_⟩, ?_⟩
    · rw [hm2]; exact (hrow _ hxN).1
    · rw [hm2]; exact (hrow _ hxN).2 _ hy1
    · rw [hm1, hm2]
      intro hcon
      have := (Prod.mk.inj hcon).2
      omega

/-! ### The heap pop returns an element of the frontier -/

theorem popMinD_perm (l : List Node) : ∀ n : Node,
    ((popMinD n l).1 :: (popMinD n l).2).Perm (n :: l) := by
  induction l with
  | nil => intro n; simp [popMinD]
  | cons m rest ih =>
    intro n
    rw [popMinD]
    by_cases hlt : nodeLt (popMinD m rest).1 n = true
    · simp only [hlt, if_true]
      exact (List.Perm.swap n (popMinD m rest).1 (popMinD m rest).2).trans ((ih m).cons n)
    · simp [hlt]

theorem popMinD_fst_mem (l : List Node) (n : Node) :
    (popMinD n l).1 = n ∨ (popMinD n l).1 ∈ l := by
  have h := (popMinD_perm l n).subset (List.mem_cons_self _ _)
  exact List.mem_cons.mp h

theorem popMinD_snd_mem (l : List Node) (n : Node) (x : Node)
    (hx : x ∈ (popMinD n l).2) : x = n ∨ x ∈ l := by
  have h := (popMinD_perm l n).subset (List.mem_cons_of_mem _ hx)
  exact List.mem_cons.mp h

/-! ### Soundness invariant of the search loop -/

/-- Invariant of every frontier node: its stored path starts at `start`,
ends at its stored configuration, and is a chain of available moves. -/
def GoodNode (N : Nat) (start : ConfigL) (node : Node) : Prop :=
  node.2.2.1.head? = some start ∧ node.2.2.1.getLast? = some node.2.1 ∧
  List.Chain' (StepRel N) node.2.2.1

theorem expand_good {N : Nat} {start goal : ConfigL} {node : Node}
    (h : GoodNode N start node) :
    ∀ n' ∈ expand N goal node, GoodNode N start n' := by
  intro n' hn'
  rw [expand] at hn'
  obtain ⟨act, hact, rfl⟩ := List.mem_map.mp hn'
  obtain ⟨hh, hl, hc⟩ := h
  have hne : node.2.2.1 ≠ [] := by
    intro hcon; rw [hcon] at hh; simp at hh
  refine ⟨?_, ?_, ?_⟩
  · simp [List.head?_append, Option.or_of_isSome, hh]
  · exact List.getLast?_concat _
  · rw [List.chain'_append]
    refine ⟨hc, List.chain'_singleton _, ?_⟩
    intro a ha b hb
    simp only [List.head?_cons, Option.mem_def, Option.some.injEq] at hb
    rw [hl] at ha
    simp only [Option.mem_def, Option.some.injEq] at ha
    subst ha; subst hb
    exact ⟨act, hact, rfl⟩

theorem solveLoop_sound {N : Nat} {start goal : ConfigL} :
    ∀ (fuel : Nat) (frontier : List Node) (visited : List ConfigL),
    (∀ node ∈ frontier, GoodNode N start node) →
    ∀ p, solveLoop N goal fuel frontier visited = some (some p) →
    p.head? = some start ∧ p.getLast? = some goal ∧ List.Chain' (StepRel N) p := by
  intro fuel
  induction fuel with
  | zero =>
    intro frontier visited hinv p hrun
    cases frontier with
    | nil => simp [solveLoop] at hrun
    | cons n rest => simp [solveLoop] at hrun
  | succ f ih =>
    intro frontier visited hinv p hrun
    cases frontier with
    | nil => simp [solveLoop] at hrun
    | cons n rest =>
      have hgood : GoodNode N start (popMinD n rest).1 := by
        rcases popMinD_fst_mem rest n with h | h
        · rw [h]; exact hinv n (List.mem_cons_self _ _)
        · exact hinv _ (List.mem_cons_of_mem _ h)
      have hrest : ∀ x ∈ (popMinD n rest).2, GoodNode N start x := by
        intro x hx
        rcases popMinD_snd_mem rest n x hx with h | h
        · rw [h]; exact hinv n (List.mem_cons_self _ _)
        · exact hinv _ (List.mem_cons_of_mem _ h)
      rw [solveLoop] at hrun
      split at hrun
      · rename_i hgoal
        injection hrun with hrun'
        injection hrun' with hrun''
        obtain ⟨hh, hl, hc⟩ := hgood
        rw [hrun''] at hh hl hc
        exact ⟨hh, hgoal ▸ hl, hc⟩
      · split at hrun
        · exact ih _ _ hrest p hrun
        · refine ih _ _ ?_ p hrun
          intro x hx
          rcases List.mem_append.mp hx with h | h
          · exact hrest x h
          · exact expand_good hgood x h

/-- Shared helper: soundness of any returned path, from the loop invariant. -/
theorem solve_sound_aux (N fuel : Nat) (start goal : ConfigL) (p : List ConfigL)
    (h : solve_puzzle N fuel start goal = some (some p)) :
    p.head? = some start ∧ p.getLast? = some goal ∧ List.Chain' (StepRel N) p := by
  refine solveLoop_sound fuel _ [] ?_ p h
  intro node hn
  have : node = (0, start, [start], 0) := by simpa using hn
  rw [this]
  exact ⟨rfl, rfl, List.chain'_singleton _⟩

/-! ### Claims about the search result -/

/-- C1: if `solve_puzzle` returns a path (SOLVED), that path begins with the
start configuration, ends with a configuration cell-by-cell equal to the
goal configuration, and each configuration after the first is obtained from
its predecessor by applying exactly one element of `available_actions` of
that predecessor. -/
theorem solve_puzzle_path_sound (N fuel : Nat) (start goal : ConfigL) (p : List ConfigL)
    (h : solve_puzzle N fuel start goal = some (some p)) :
    p.head? = some start ∧ p.getLast? = some goal ∧ List.Chain' (StepRel N) p :=
  solve_sound_aux N fuel start goal p h

/-- Witness for C1: a concrete 2×2 run returns a 2-step path that is sound. -/
theorem solve_puzzle_path_sound_witness :
    ([[[1, 2], [0, 3]], [[1, 2], [3, 0]]] : List ConfigL).head? = some [[1, 2], [0, 3]] ∧
    ([[[1, 2], [0, 3]], [[1, 2], [3, 0]]] : List ConfigL).getLast? = some [[1, 2], [3, 0]] ∧
    List.Chain' (StepRel 2) [[[1, 2], [0, 3]], [[1, 2], [3, 0]]] :=
  solve_puzzle_path_sound 2 5 [[1, 2], [0, 3]] [[1, 2], [3, 0]]
    [[[1, 2], [0, 3]], [[1, 2], [3, 0]]] (by decide)

/-- C2: for every configuration `s` and any non-zero fuel,
`solve_puzzle s s` returns exactly the one-element path `[s]`: the goal
test fires on the popped start node before any expansion. -/
theorem solve_puzzle_self (N fuel : Nat) (s : ConfigL) :
    solve_puzzle N (fuel + 1) s s = some (some [s]) := by
  simp [solve_puzzle, solveLoop, popMinD]

/-- C3: the loop signals exhaustion (`None`) exactly on an emptied frontier:
an empty frontier yields `some none` for any visited set; a SOLVED result is
a nonempty path and is distinguishable from `none`, including the length-1
path of a zero-move solution; and whenever the popped minimum equals the
goal the loop returns SOLVED (so exhaustion can only happen when no popped
configuration equalled the goal). -/
theorem solve_puzzle_exhaustion :
    (∀ (N : Nat) (goal : ConfigL) (fuel : Nat) (visited : List ConfigL),
        solveLoop N goal fuel [] visited = some none) ∧
    (∀ (N fuel : Nat) (s g : ConfigL) (p : List ConfigL),
        solve_puzzle N fuel s g = some (some p) →
        p ≠ [] ∧ (some (some p) : Option (Option (List ConfigL))) ≠ some none) ∧
    (∀ (N : Nat) (goal : ConfigL) (fuel : Nat) (n : Node) (rest : List Node)
        (visited : List ConfigL), (popMinD n rest).1.2.1 = goal →
        solveLoop N goal (fuel + 1) (n :: rest) visited =
          some (some (popMinD n rest).1.2.2.1)) := by
  refine ⟨?_, ?_, ?_⟩
  · intro N goal fuel visited
    cases fuel <;> simp [solveLoop]
  · intro N fuel s g p h
    obtain ⟨hh, -, -⟩ := solve_sound_aux N fuel s g p h
    refine ⟨?_, by simp⟩
    intro hcon
    rw [hcon] at hh
    simp at hh
  · intro N goal fuel n rest visited hpop
    rw [solveLoop]
    simp [hpop]

/-- Witness for C3 at concrete inputs. -/
theorem solve_puzzle_exhaustion_witness :
    solveLoop 2 [[1, 2], [3, 0]] 3 [] [] = some none ∧
    ([[[1, 2], [3, 0]]] : List ConfigL) ≠ [] ∧
    solveLoop 2 [[1, 2], [3, 0]] 1 [(0, [[1, 2], [3, 0]], [[[1, 2], [3, 0]]], 0)] [] =
      some (some [[[1, 2], [3, 0]]]) := by
  refine ⟨solve_puzzle_exhaustion.1 2 [[1, 2], [3, 0]] 3 [],
    (solve_puzzle_exhaustion.2.1 2 1 [[1, 2], [3, 0]] [[1, 2], [3, 0]]
      [[[1, 2], [3, 0]]] (by decide)).1, ?_⟩
  have h := solve_puzzle_exhaustion.2.2 2 [[1, 2], [3, 0]] 0
    (0, [[1, 2], [3, 0]], [[[1, 2], [3, 0]]], 0) [] [] (by decide)
  simpa [popMinD] using h

/-! ### Claims about moves -/

/-- C5: every move produced by `available_actions` is self-inverse:
applying it twice returns the original configuration. -/
theorem do_action_self_inverse (N : Nat) (c : ConfigL) (m : PAction)
    (hwf : WFConfig N c) (hm : m ∈ available_actions N c) :
    do_action (do_action c m) m = c := by
  obtain ⟨h1, h2, hne⟩ := action_bounds hwf hm
  exact do_action_involutive c m h1 h2 hne

/-- Witness for C5 on a concrete 2×2 configuration and move. -/
theorem do_action_self_inverse_witness :
    do_action (do_action [[1, 2], [0, 3]] ((1, 0), (0, 0))) ((1, 0), (0, 0)) =
      [[1, 2], [0, 3]] :=
  do_action_self_inverse 2 [[1, 2], [0, 3]] ((1, 0), (0, 0))
    ⟨by decide, by decide⟩ (by decide)

/-- C7: `do_action` returns a configuration in which the two coordinates of
the move are swapped and every other cell is unchanged, with all dimensions
preserved (the input itself is untouched: `do_action` is a pure function on
a copy, never a mutation). -/
theorem do_action_swaps (N : Nat) (c : ConfigL) (m : PAction)
    (hwf : WFConfig N c) (hm : m ∈ available_actions N c) :
    cell (do_action c m) m.1.1 m.1.2 = cell c m.2.1 m.2.2 ∧
    cell (do_action c m) m.2.1 m.2.2 = cell c m.1.1 m.1.2 ∧
    (∀ a b : Nat, (a, b) ≠ m.1 → (a, b) ≠ m.2 →
        cell (do_action c m) a b = cell c a b) ∧
    (do_action c m).length = c.length ∧
    (∀ a : Nat, ((do_action c m).getD a []).length = (c.getD a []).length) := by
  obtain ⟨h1, h2, hne⟩ := action_bounds hwf hm
  exact ⟨cell_do_action_pos1 c m h1 hne, cell_do_action_pos2 c m h2,
    fun a b hna hnb => cell_do_action_other c m hna hnb,
    length_do_action c m, fun a => rowLen_do_action c m a⟩

/-- Witness for C7 on a concrete 2×2 configuration and move. -/
theorem do_action_swaps_witness :
    cell (do_action [[1, 2], [0, 3]] ((1, 0), (1, 1))) 1 0 = cell [[1, 2], [0, 3]] 1 1 ∧
    cell (do_action [[1, 2], [0, 3]] ((1, 0), (1, 1))) 1 1 = cell [[1, 2], [0, 3]] 1 0 ∧
    cell (do_action [[1, 2], [0, 3]] ((1, 0), (1, 1))) 0 1 = cell [[1, 2], [0, 3]] 0 1 := by
  have h := do_action_swaps 2 [[1, 2], [0, 3]] ((1, 0), (1, 1))
    ⟨by decide, by decide⟩ (by decide)
  exact ⟨h.1, h.2.1, h.2.2.1 0 1 (by decide) (by decide)⟩

/-- C6: on an N×N configuration with N > 1, the number of available moves is
2 when the blank is in a corner, 3 on a non-corner border cell, 4 in the
interior; always between 2 and 4. -/
theorem available_actions_count (N x y : Nat) (c : ConfigL) (hN : 1 < N)
    (hwf : WFConfig N c) (hb : findBlank c = some (x, y)) :
    ((available_actions N c).length =
      if (x = 0 ∨ x = N - 1) ∧ (y = 0 ∨ y = N - 1) then 2
      else if (x = 0 ∨ x = N - 1) ∨ (y = 0 ∨ y = N - 1) then 3 else 4) ∧
    2 ≤ (available_actions N c).length ∧ (available_actions N c).length ≤ 4 := by
  have hx : x < N := by
    have h1 := (findBlank_bounds hb).1
    rwa [hwf.1] at h1
  have hy : y < N := by
    have h2 := (findBlank_bounds hb).2
    rwa [WFConfig_rowLen hwf hx] at h2
  have hlen : (available_actions N c).length =
      (if 0 < x then 1 else 0) + ((if x < N - 1 then 1 else 0) +
      ((if 0 < y then 1 else 0) + (if y < N - 1 then 1 else 0))) := by
    simp only [available_actions, hb]
    simp only [List.length_append, apply_ite List.length,
      List.length_singleton, List.length_nil]
    omega
  rw [hlen]
  split_ifs <;> omega

/-- Witness for C6: blank in a corner of a 2×2 grid gives exactly 2 moves. -/
theorem available_actions_count_witness :
    (available_actions 2 [[1, 2], [0, 3]]).length = 2 := by
  have h := available_actions_count 2 1 0 [[1, 2], [0, 3]] (by decide)
    ⟨by decide, by decide⟩ (by decide)
  simpa using h.1

/-! ### Claims about the frontier bookkeeping -/

/-- C9: the frontier is seeded with the single node `(0, start, [start], 0)`
(so `f = 0`, not `0 + heuristic(start, goal)`) over an empty visited set,
and every node pushed afterwards has `f = g + heuristic(child, goal)` with
`g` one more than its parent's and the child appended to the parent's path;
the final conjunct exhibits a start whose heuristic is non-zero, so seeding
`f = 0` really differs from seeding `0 + heuristic`. -/
theorem solve_puzzle_frontier_costs :
    (∀ (N fuel : Nat) (s g : ConfigL),
        solve_puzzle N fuel s g = solveLoop N g fuel [(0, s, [s], 0)] []) ∧
    (∀ (N : Nat) (g : ConfigL) (node n' : Node), n' ∈ expand N g node →
        (∃ act ∈ available_actions N node.2.1, n'.2.1 = do_action node.2.1 act) ∧
        n'.1 = n'.2.2.2 + heuristic N n'.2.1 g ∧
        n'.2.2.2 = node.2.2.2 + 1 ∧
        n'.2.2.1 = node.2.2.1 ++ [n'.2.1]) ∧
    heuristic 2 [[0, 2], [1, 3]] [[1, 2], [3, 0]] ≠ 0 := by
  refine ⟨fun N fuel s g => rfl, ?_, by decide⟩
  intro N g node n' hn'
  rw [expand] at hn'
  obtain ⟨act, hact, rfl⟩ := List.mem_map.mp hn'
  exact ⟨⟨act, hact, rfl⟩, rfl, rfl, rfl⟩

/-- Witness for C9 on a concrete expansion. -/
theorem solve_puzzle_frontier_costs_witness :
    solve_puzzle 2 5 [[1, 2], [0, 3]] [[1, 2], [3, 0]] =
      solveLoop 2 [[1, 2], [3, 0]] 5 [(0, [[1, 2], [0, 3]], [[[1, 2], [0, 3]]], 0)] [] ∧
    (1 + heuristic 2 [[1, 2], [3, 0]] [[1, 2], [3, 0]], [[1, 2], [3, 0]],
        ([[[1, 2], [0, 3]], [[1, 2], [3, 0]]] : List ConfigL), 1).1 =
      1 + heuristic 2 [[1, 2], [3, 0]] [[1, 2], [3, 0]] := by
  refine ⟨solve_puzzle_frontier_costs.1 2 5 [[1, 2], [0, 3]] [[1, 2], [3, 0]], ?_⟩
  have h := solve_puzzle_frontier_costs.2.1 2 [[1, 2], [3, 0]]
    (0, [[1, 2], [0, 3]], [[[1, 2], [0, 3]]], 0)
    (1 + heuristic 2 [[1, 2], [3, 0]] [[1, 2], [3, 0]], [[1, 2], [3, 0]],
      [[[1, 2], [0, 3]], [[1, 2], [3, 0]]], 1) (by decide)
  exact h.2.1

/-! ### Antisymmetry of the heap tuple order -/

theorem listLtBy_antisymm {α : Type} {lt : α → α → Bool}
    (hlt : ∀ x y, lt x y = false → lt y x = false → x = y) :
    ∀ a b : List α, listLtBy lt a b = false → listLtBy lt b a = false → a = b := by
  intro a
  induction a with
  | nil =>
    intro b h1 h2
    cases b with
    | nil => rfl
    | cons y ys => simp [listLtBy] at h1
  | cons x xs ih =>
    intro b h1 h2
    cases b with
    | nil => simp [listLtBy] at h2
    | cons y ys =>
      rw [listLtBy] at h1 h2
      by_cases hxy : lt x y = true
      · simp [hxy] at h1
      · by_cases hyx : lt y x = true
        · simp [hyx] at h2
        · have hxF : lt x y = false := by
            cases h : lt x y
            · rfl
            · exact absurd h hxy
          have hyF : lt y x = false := by
            cases h : lt y x
            · rfl
            · exact absurd h hyx
          simp only [hxF, hyF, Bool.false_eq_true, if_false] at h1 h2
          rw [hlt x y hxF hyF]
          exact congrArg _ (ih ys h1 h2)

theorem rowLt_antisymm : ∀ a b : List Nat, rowLt a b = false → rowLt b a = false → a = b :=
  listLtBy_antisymm (fun x y hx hy => by simp at hx hy; omega)

theorem configLt_antisymm : ∀ a b : ConfigL, configLt a b = false → configLt b a = false → a = b :=
  listLtBy_antisymm rowLt_antisymm

theorem pathLt_antisymm : ∀ a b : List ConfigL,
    pathLt a b = false → pathLt b a = false → a = b :=
  listLtBy_antisymm configLt_antisymm

theorem nodeLt_antisymm (a b : Node) (h1 : nodeLt a b = false)
    (h2 : nodeLt b a = false) : a = b := by
  obtain ⟨fa, sa, pa, ga⟩ := a
  obtain ⟨fb, sb, pb, gb⟩ := b
  rw [nodeLt] at h1 h2
  simp only at h1 h2
  by_cases hf : fa < fb
  · simp [hf] at h1
  · by_cases hf' : fb < fa
    · simp [hf'] at h2
    · have hfe : fa = fb := by omega
      subst hfe
      simp only [hf, hf', if_false] at h1 h2
      by_cases hs : configLt sa sb = true
      · simp [hs] at h1
      · by_cases hs' : configLt sb sa = true
        · simp [hs'] at h2
        · have hsF : configLt sa sb = false := by
            cases h : configLt sa sb
            · rfl
            · exact absurd h hs
          have hsF' : configLt sb sa = false := by
            cases h : configLt sb sa
            · rfl
            · exact absurd h hs'
          have hse : sa = sb := configLt_antisymm sa sb hsF hsF'
          subst hse
          simp only [hsF, hsF', Bool.false_eq_true, if_false] at h1 h2
          by_cases hp : pathLt pa pb = true
          · simp [hp] at h1
          · by_cases hp' : pathLt pb pa = true
            · simp [hp'] at h2
            · have hpF : pathLt pa pb = false := by
                cases h : pathLt pa pb
                · rfl
                · exact absurd h hp
              have hpF' : pathLt pb pa = false := by
                cases h : pathLt pb pa
                · rfl
                · exact absurd h hp'
              have hpe : pa = pb := pathLt_antisymm pa pb hpF hpF'
              subst hpe
              simp only [hpF, hpF', Bool.false_eq_true, if_false,
                decide_eq_false_iff_not] at h1 h2
              have : ga = gb := by omega
              rw [this]

/-! ### Claim C10: determinism -/

/-- C10: the search is deterministic: the embedding is a pure function, so
two invocations on the same inputs return identical results; and frontier
ties cannot be ambiguous because the tuple order `(f, state, path, g)` is
antisymmetric — two nodes neither of which precedes the other are equal. -/
theorem solve_puzzle_deterministic :
    (∀ (N fuel : Nat) (s g : ConfigL),
        solve_puzzle N fuel s g = solve_puzzle N fuel s g) ∧
    (∀ a b : Node, nodeLt a b = false → nodeLt b a = false → a = b) :=
  ⟨fun _ _ _ _ => rfl, nodeLt_antisymm⟩

/-- Witness for C10 at concrete inputs. -/
theorem solve_puzzle_deterministic_witness :
    solve_puzzle 2 2 [[1, 2], [0, 3]] [[1, 2], [3, 0]] =
      solve_puzzle 2 2 [[1, 2], [0, 3]] [[1, 2], [3, 0]] ∧
    ((0, [[1, 2]], [[[1, 2]]], 0) : Node) = (0, [[1, 2]], [[[1, 2]]], 0) :=
  ⟨solve_puzzle_deterministic.1 2 2 [[1, 2], [0, 3]] [[1, 2], [3, 0]],
   solve_puzzle_deterministic.2 (0, [[1, 2]], [[[1, 2]]], 0)
     (0, [[1, 2]], [[[1, 2]]], 0) (by decide) (by decide)⟩

/-! ### Claim C4: the heuristic as a closed formula -/

/-- The Manhattan summand of the heuristic at one cell (code form). -/
def manhattanTermF (N : Nat) (s : ConfigL) (x y : Nat) : Nat :=
  if cell s x y ≠ 0 then
    (((x : Int) - ((cell s x y - 1) / N : Nat)).natAbs +
     ((y : Int) - ((cell s x y - 1) % N : Nat)).natAbs)
  else 0

/-- The misplacement summand of the heuristic at one cell (code form). -/
def misTermF (_N : Nat) (s g : ConfigL) (x y : Nat) : Nat :=
  if cell s x y ≠ 0 then (if cell g x y ≠ cell s x y then 1 else 0) else 0

/-- Spec-side restatement: the sum, over all non-blank cells, of the
Manhattan distance from `(x, y)` to the cell value's goal position
`goal_positions N v = ((v-1) div N, (v-1) mod N)`. -/
def manhattanSpec (N : Nat) (s : ConfigL) : Nat :=
  ∑ x in Finset.range N, ∑ y in Finset.range N,
    if cell s x y ≠ 0 then
      (((x : Int) - ((goal_positions N (cell s x y)).1 : Nat)).natAbs +
       ((y : Int) - ((goal_positions N (cell s x y)).2 : Nat)).natAbs)
    else 0

/-- Spec-side restatement: the number of non-blank cells whose value differs
from the goal configuration at the same coordinate. -/
def misplacedCount (N : Nat) (s g : ConfigL) : Nat :=
  ∑ x in Finset.range N, ∑ y in Finset.range N,
    if cell s x y ≠ 0 ∧ cell g x y ≠ cell s x y then 1 else 0

theorem list_range_map_sum (n : Nat) (f : Nat → Nat) :
    ((List.range n).map f).sum = ∑ i in Finset.range n, f i := by
  induction n with
  | zero => simp
  | succ k ih => simp [List.range_succ, Finset.sum_range_succ, ih]

theorem foldl_pair_sum (f g : Nat → Nat) (l : List Nat) : ∀ a b : Nat,
    l.foldl (fun acc y => (acc.1 + f y, acc.2 + g y)) (a, b)
      = (a + (l.map f).sum, b + (l.map g).sum) := by
  induction l with
  | nil => intro a b; simp
  | cons y ys ih => intro a b; simp [ih, Nat.add_assoc]

theorem heuristic_foldl_eq (N : Nat) (s g : ConfigL) :
    heuristic N s g =
      ((List.range N).map (fun x => ((List.range N).map (manhattanTermF N s x)).sum)).sum +
      2 * ((List.range N).map (fun x => ((List.range N).map (misTermF N s g x)).sum)).sum := by
  simp only [heuristic]
  have hin : ∀ x : Nat, (fun (acc : Nat × Nat) (y : Nat) =>
      if cell s x y ≠ 0 then
        (acc.1 + (((x : Int) - ((cell s x y - 1) / N : Nat)).natAbs +
                  ((y : Int) - ((cell s x y - 1) % N : Nat)).natAbs),
         acc.2 + (if cell g x y ≠ cell s x y then 1 else 0))
      else acc)
      = fun (acc : Nat × Nat) (y : Nat) =>
          (acc.1 + manhattanTermF N s x y, acc.2 + misTermF N s g x y) := by
    intro x
    funext acc y
    by_cases h0 : cell s x y ≠ 0
    · simp [manhattanTermF, misTermF, h0]
    · simp [manhattanTermF, misTermF, h0]
  simp only [hin]
  have hin2 : ∀ x : Nat, ∀ acc : Nat × Nat,
      (List.range N).foldl
        (fun (acc : Nat × Nat) (y : Nat) =>
          (acc.1 + manhattanTermF N s x y, acc.2 + misTermF N s g x y)) acc
        = (acc.1 + ((List.range N).map (manhattanTermF N s x)).sum,
           acc.2 + ((List.range N).map (misTermF N s g x)).sum) := by
    intro x acc
    obtain ⟨a, b⟩ := acc
    exact foldl_pair_sum _ _ _ a b
  simp only [hin2]
  rw [foldl_pair_sum (fun x => ((List.range N).map (manhattanTermF N s x)).sum)
    (fun x => ((List.range N).map (misTermF N s g x)).sum) (List.range N) 0 0]
  simp

/-- C4: `heuristic(c, g)` equals the sum over all non-blank cells of the
Manhattan distance to the value's goal position, plus two times the count
of non-blank cells whose value differs from `g` at the same coordinate; in
particular it is a non-negative integer. -/
theorem heuristic_eq_spec (N : Nat) (s g : ConfigL) :
    heuristic N s g = manhattanSpec N s + 2 * misplacedCount N s g ∧
    0 ≤ heuristic N s g := by
  refine ⟨?_, Nat.zero_le _⟩
  rw [heuristic_foldl_eq, manhattanSpec, misplacedCount]
  have h1 : ((List.range N).map
        (fun x => ((List.range N).map (manhattanTermF N s x)).sum)).sum
      = ∑ x in Finset.range N, ∑ y in Finset.range N,
          (if cell s x y ≠ 0 then
            (((x : Int) - ((goal_positions N (cell s x y)).1 : Nat)).natAbs +
             ((y : Int) - ((goal_positions N (cell s x y)).2 : Nat)).natAbs)
          else 0) := by
    rw [list_range_map_sum]
    refine Finset.sum_congr rfl ?_
    intro x hx
    rw [list_range_map_sum]
    refine Finset.sum_congr rfl ?_
    intro y hy
    simp [manhattanTermF, goal_positions]
  have h2 : ((List.range N).map
        (fun x => ((List.range N).map (misTermF N s g x)).sum)).sum
      = ∑ x in Finset.range N, ∑ y in Finset.range N,
          (if cell s x y ≠ 0 ∧ cell g x y ≠ cell s x y then 1 else 0) := by
    rw [list_range_map_sum]
    refine Finset.sum_congr rfl ?_
    intro x hx
    rw [list_range_map_sum]
    refine Finset.sum_congr rfl ?_
    intro y hy
    by_cases h0 : cell s x y ≠ 0
    · by_cases hg : cell g x y ≠ cell s x y
      · simp [misTermF, h0, hg]
      · simp [misTermF, h0, hg]
    · simp [misTermF, h0]
  rw [h1, h2]

/-! ### Claim C8: the data-model invariant is preserved -/

/-- The data-model invariant: an N×N grid with exactly one zero whose
non-zero values are a permutation of `1 .. N² - 1`. -/
def ValidConfig (N : Nat) (c : ConfigL) : Prop :=
  WFConfig N c ∧ c.flatten.count 0 = 1 ∧
  (c.flatten.filter (· ≠ 0)).Perm (List.range' 1 (N ^ 2 - 1))

theorem append_snoc_perm (l1 l2 : List Nat) (d : Nat) :
    ((l1 ++ l2) ++ [d]).Perm ((l1 ++ [d]) ++ l2) := by
  rw [List.append_assoc, List.append_assoc]
  exact List.Perm.append_left l1 List.perm_append_comm

theorem row_set_perm : ∀ (r : List Nat) (y v : Nat), y < r.length →
    (r.set y v ++ [r.getD y 0]).Perm (r ++ [v])
  | [], y, v, hy => absurd hy (by simp)
  | a :: t, 0, v, _ => by
    simp only [List.set_cons_zero, List.getD_cons_zero, List.cons_append]
    exact ((List.perm_append_singleton a t).cons v).trans
      ((List.Perm.swap a v t).trans (((List.perm_append_singleton v t).symm).cons a))
  | a :: t, y + 1, v, hy => by
    simp only [List.set_cons_succ, List.getD_cons_succ, List.cons_append]
    exact (row_set_perm t y v (by simpa using hy)).cons a

theorem config_set_perm : ∀ (c : ConfigL) (x y v : Nat), x < c.length →
    y < (c.getD x []).length →
    ((setCell c x y v).flatten ++ [cell c x y]).Perm (c.flatten ++ [v])
  | [], x, y, v, hx, _ => absurd hx (by simp)
  | r :: rs, 0, y, v, _, hy => by
    have hy' : y < r.length := by simpa using hy
    show ((r.set y v :: rs).flatten ++ [cell (r :: rs) 0 y]).Perm ((r :: rs).flatten ++ [v])
    have hcell : cell (r :: rs) 0 y = r.getD y 0 := rfl
    rw [hcell, List.flatten_cons, List.flatten_cons]
    exact ((append_snoc_perm (r.set y v) rs.flatten (r.getD y 0)).trans
      ((row_set_perm r y v hy').append_right rs.flatten)).trans
      (append_snoc_perm r rs.flatten v).symm
  | r :: rs, x + 1, y, v, hx, hy => by
    have hx' : x < rs.length := by simpa using hx
    have hy' : y < (rs.getD x []).length := by simpa using hy
    show ((r :: setCell rs x y v).flatten ++ [cell (r :: rs) (x + 1) y]).Perm
      ((r :: rs).flatten ++ [v])
    have hcell : cell (r :: rs) (x + 1) y = cell rs x y := rfl
    rw [hcell, List.flatten_cons, List.flatten_cons, List.append_assoc, List.append_assoc]
    exact List.Perm.append_left r (config_set_perm rs x y v hx' hy')

theorem join_do_action_perm {c : ConfigL} {m : PAction} (h1 : InBounds c m.1)
    (h2 : InBounds c m.2) (hne : m.1 ≠ m.2) :
    ((do_action c m).flatten).Perm c.flatten := by
  have hb1 : m.2.1 < (setCell c m.1.1 m.1.2 (cell c m.2.1 m.2.2)).length := by
    rw [length_setCell]; exact h2.1
  have hb2 : m.2.2 <
      ((setCell c m.1.1 m.1.2 (cell c m.2.1 m.2.2)).getD m.2.1 []).length := by
    rw [rowLen_setCell]; exact h2.2
  have hcell : cell (setCell c m.1.1 m.1.2 (cell c m.2.1 m.2.2)) m.2.1 m.2.2 =
      cell c m.2.1 m.2.2 :=
    cell_setCell_ne c _ (by simpa using Ne.symm hne)
  have hA := config_set_perm c m.1.1 m.1.2 (cell c m.2.1 m.2.2) h1.1 h1.2
  have hB := config_set_perm (setCell c m.1.1 m.1.2 (cell c m.2.1 m.2.2))
    m.2.1 m.2.2 (cell c m.1.1 m.1.2) hb1 hb2
  rw [hcell] at hB
  have hC : ((do_action c m).flatten ++ [cell c m.2.1 m.2.2]).Perm
      (c.flatten ++ [cell c m.2.1 m.2.2]) := hB.trans hA
  have hD := ((List.perm_append_singleton _ _).symm.trans hC).trans
    (List.perm_append_singleton _ _)
  exact hD.cons_inv

theorem WFConfig_do_action {N : Nat} {c : ConfigL} (m : PAction)
    (hwf : WFConfig N c) : WFConfig N (do_action c m) := by
  refine ⟨by rw [length_do_action]; exact hwf.1, ?_⟩
  intro r hr
  obtain ⟨i, hi, heq⟩ := List.getElem_of_mem hr
  have hlen : i < c.length := by
    have := hi
    rwa [length_do_action] at this
  have hgetD : (do_action c m).getD i [] = r := by
    rw [List.getD_eq_getElem?_getD, List.getElem?_eq_getElem hi, Option.getD_some]
    exact heq
  have hN : i < N := by rwa [hwf.1] at hlen
  rw [← hgetD, rowLen_do_action]
  exact WFConfig_rowLen hwf hN

/-- Preservation of the full invariant by one available move (helper shared
by the invariant claim and the path corollary). -/
theorem valid_preserved {N : Nat} {c : ConfigL} {m : PAction}
    (hv : ValidConfig N c) (hm : m ∈ available_actions N c) :
    ValidConfig N (do_action c m) := by
  obtain ⟨h1, h2, hne⟩ := action_bounds hv.1 hm
  have hperm := join_do_action_perm h1 h2 hne
  refine ⟨WFConfig_do_action m hv.1, ?_, ?_⟩
  · rw [hperm.count_eq]
    exact hv.2.1
  · exact (hperm.filter _).trans hv.2.2

theorem chain_all_valid {N : Nat} : ∀ (p : List ConfigL) (s : ConfigL),
    p.head? = some s → List.Chain' (StepRel N) p → ValidConfig N s →
    ∀ q ∈ p, ValidConfig N q := by
  intro p
  induction p with
  | nil => intro s _ _ _ q hq; simp at hq
  | cons a t ih =>
    intro s hh hc hv q hq
    have has : a = s := by simpa using hh
    subst has
    rcases List.mem_cons.mp hq with rfl | hq'
    · exact hv
    · cases t with
      | nil => simp at hq'
      | cons b t' =>
        have hR : StepRel N a b := (List.chain'_cons.mp hc).1
        have hvb : ValidConfig N b := by
          obtain ⟨m, hm, rfl⟩ := hR
          exact valid_preserved hv hm
        exact ih b rfl (List.chain'_cons.mp hc).2 hvb q hq'

/-- C8: a configuration satisfying the invariant (exactly one zero, the
non-zero values a permutation of `1..N²-1`, on an N×N grid) keeps it under
every available move, and hence every configuration of a returned solution
path satisfies it when the start does. -/
theorem valid_invariant_preserved :
    (∀ (N : Nat) (c : ConfigL) (m : PAction), ValidConfig N c →
        m ∈ available_actions N c → ValidConfig N (do_action c m)) ∧
    (∀ (N fuel : Nat) (start goal : ConfigL) (p : List ConfigL),
        solve_puzzle N fuel start goal = some (some p) → ValidConfig N start →
        ∀ q ∈ p, ValidConfig N q) := by
  refine ⟨fun N c m hv hm => valid_preserved hv hm, ?_⟩
  intro N fuel start goal p hrun hv
  obtain ⟨hh, -, hc⟩ := solve_sound_aux N fuel start goal p hrun
  exact chain_all_valid p start hh hc hv

/-- Witness for C8 on a concrete move and a concrete solved path. -/
theorem valid_invariant_preserved_witness :
    ValidConfig 2 (do_action [[1, 2], [0, 3]] ((1, 0), (1, 1))) ∧
    ValidConfig 2 [[1, 2], [3, 0]] := by
  constructor
  · exact valid_invariant_preserved.1 2 [[1, 2], [0, 3]] ((1, 0), (1, 1))
      ⟨⟨by decide, by decide⟩, by decide, by decide⟩ (by decide)
  · exact valid_invariant_preserved.2 2 5 [[1, 2], [0, 3]] [[1, 2], [3, 0]]
      [[[1, 2], [0, 3]], [[1, 2], [3, 0]]] (by decide)
      ⟨⟨by decide, by decide⟩, by decide, by decide⟩ [[1, 2], [3, 0]] (by decide)
